import Mathlib

/-!
Verification of the block-dispatch and text-normalization pipeline of the
lens OCR module (modules/ocr/ocr_lens.py).  Strings are embedded as lists of
characters; the regular-expression rewrites of the source are embedded as
left-to-right scans that mirror the non-overlapping match semantics of
re.sub on the concrete patterns used by the source.
-/

namespace OcrLens

/-- Characters matched by the regex class \s and stripped by str.strip:
ASCII whitespace plus the no-break space (the Unicode whitespace characters
relevant to the proofs; the source patterns are Unicode-aware). -/
def isWs (c : Char) : Bool :=
  c == ' ' || c == '\t' || c == '\n' || c == '\u000d' || c == '\u000b' ||
  c == '\u000c' || c == '\u00a0'

/-- Characters of the regex class [,.!?…] used by the punctuation rules. -/
def isPunct (c : Char) : Bool :=
  c == ',' || c == '.' || c == '!' || c == '?' || c == '…'

/-- Characters of the class [.!?…] used for sentence splitting and for the
lookback test (the comma is not a sentence terminator there). -/
def isTermCh (c : Char) : Bool :=
  c == '.' || c == '!' || c == '?' || c == '…'

/-- Scan for re.sub of the pattern \s+([,.!?…]) with replacement \1: the
accumulator holds the pending whitespace run (reversed); a terminator ends
the run and discards it, any other character flushes it. -/
def step1Go (pend : List Char) : List Char → List Char
  | [] => pend.reverse
  | c :: cs =>
    if isWs c then step1Go (c :: pend) cs
    else if isPunct c then c :: step1Go [] cs
    else pend.reverse ++ c :: step1Go [] cs

/-- Removal of whitespace immediately preceding a punctuation mark. -/
def step1 (l : List Char) : List Char := step1Go [] l

/-- The two negative lookaheads of the second pattern: they hold when the
rest of the string is empty or starts with a character that is neither
whitespace nor punctuation. -/
def step2Need : List Char → Bool
  | [] => true
  | d :: _ => !isWs d && !isPunct d

/-- Scan for re.sub of ([,.!?…])(?!\s)(?![,.!?…]) with replacement of the
mark followed by one space: a space is inserted after a punctuation mark
whose successor is neither whitespace nor punctuation, and after a
punctuation mark that ends the string. -/
def step2 : List Char → List Char
  | [] => []
  | c :: cs =>
    if isPunct c && step2Need cs then c :: ' ' :: step2 cs
    else c :: step2 cs

/-- Scan for re.sub of ([,.!?…])\s+([,.!?…]) with replacement \1\2: the
state remembers a punctuation mark and the whitespace run read after it;
a second mark closes the match and drops the run. -/
def step3Go (st : Option (Char × List Char)) : List Char → List Char
  | [] =>
    match st with
    | none => []
    | some (p, w) => p :: w.reverse
  | c :: cs =>
    match st with
    | none =>
      if isPunct c then step3Go (some (c, [])) cs
      else c :: step3Go none cs
    | some (p, w) =>
      if isWs c then step3Go (some (p, c :: w)) cs
      else if isPunct c then
        if w.isEmpty then p :: step3Go (some (c, [])) cs
        else p :: c :: step3Go none cs
      else p :: w.reverse ++ c :: step3Go none cs

/-- Removal of whitespace standing between two punctuation marks. -/
def step3 (l : List Char) : List Char := step3Go none l

/-- Left trim, as in str.strip. -/
def trimL (l : List Char) : List Char := l.dropWhile isWs

/-- Right trim, as in str.strip, written structurally. -/
def trimR : List Char → List Char
  | [] => []
  | c :: cs =>
    match trimR cs with
    | [] => if isWs c then [] else [c]
    | r => c :: r

/-- Python str.strip for whitespace. -/
def pyStrip (l : List Char) : List Char := trimR (trimL l)

/-- The method _apply_punctuation_and_spacing: the three regex rewrites in
source order, then strip. -/
def apply_punctuation_and_spacing (l : List Char) : List Char :=
  pyStrip (step3 (step2 (step1 l)))

/-- Python str.lower on one character, for the ASCII range (the strings the
claims quantify over are ASCII). -/
def toLowerA (c : Char) : Char :=
  if 65 ≤ c.toNat ∧ c.toNat ≤ 90 then Char.ofNat (c.toNat + 32) else c

/-- Python str.upper on one character, for the ASCII range. -/
def toUpperA (c : Char) : Char :=
  if 97 ≤ c.toNat ∧ c.toNat ≤ 122 then Char.ofNat (c.toNat - 32) else c

/-- Python str.lower, character by character. -/
def pyLower (w : List Char) : List Char := w.map toLowerA

/-- Python str.capitalize: first character upper-cased, the rest
lower-cased. -/
def pyCapitalize : List Char → List Char
  | [] => []
  | c :: cs => toUpperA c :: cs.map toLowerA

/-- Test that the first argument occurs at the front of the second. -/
def headMatch : List Char → List Char → Bool
  | [], _ => true
  | _ :: _, [] => false
  | a :: s, b :: t => a == b && headMatch s t

/-- Python substring membership s in pat: true iff s occurs contiguously in
pat, in particular always true for the empty string. -/
def pySubstr (s : List Char) : List Char → Bool
  | [] => headMatch s []
  | b :: t => headMatch s (b :: t) || pySubstr s t

/-- The lookback test of _apply_no_uppercase: Python words[i-1].strip()
in the four-character terminator string. -/
def inTermStr (s : List Char) : Bool :=
  pySubstr s ['.', '!', '?', '…']

/-- Tokenization by re.findall of the pattern alternating non-space runs
and space runs: the input is cut into maximal runs of characters agreeing
on isWs. -/
def tokenize : List Char → List (List Char)
  | [] => []
  | [c] => [[c]]
  | c :: d :: rest =>
    match tokenize (d :: rest) with
    | [] => [[c]]
    | t :: ts => if isWs c == isWs d then (c :: t) :: ts else [c] :: t :: ts

/-- The word loop of process_sentence: the first token is capitalized, and
a later token is capitalized exactly when the previous token, stripped, is
a substring of the terminator string (which holds in particular for every
whitespace token, whose strip is empty). -/
def processWords (prev : Option (List Char)) : List (List Char) → List (List Char)
  | [] => []
  | w :: ws =>
    match prev with
    | none => pyCapitalize w :: processWords (some w) ws
    | some p =>
      (if inTermStr (pyStrip p) then pyCapitalize w else pyLower w) ::
        processWords (some w) ws

/-- The function process_sentence of _apply_no_uppercase. -/
def processSentence (s : List Char) : List Char :=
  (processWords none (tokenize s)).flatten

/-- Scan for re.split on the zero-width pattern with lookbehind [.!?…]:
the text is cut immediately after every terminator, keeping all
characters. -/
def splitGo (acc : List Char) : List Char → List (List Char)
  | [] => [acc.reverse]
  | c :: cs =>
    if isTermCh c then (c :: acc).reverse :: splitGo [] cs
    else splitGo (c :: acc) cs

/-- Sentence splitting of _apply_no_uppercase. -/
def splitSentences (l : List Char) : List (List Char) := splitGo [] l

/-- The method _apply_no_uppercase: split into sentences, process each,
concatenate. -/
def apply_no_uppercase (l : List Char) : List Char :=
  ((splitSentences l).map processSentence).flatten

/-- The value stored into last_request_time by the constructor. -/
def initial_last_request_time : ℚ := 0

/-- The method _respect_delay, with wall time made explicit: given the
configured delay, the stored last_request_time and the clock reading at
entry, it returns the time slept and the new last_request_time, namely the
clock reading after the sleep (the sleep is exact in this model). -/
def respect_delay (delay lastReq now : ℚ) : ℚ × ℚ :=
  if now - lastReq < delay then
    (delay - (now - lastReq), now + (delay - (now - lastReq)))
  else (0, now)

/-- Outcome of the external recognizer call as seen inside the try block:
either some stage (encoding or process_image) raised, or a result record
carrying full_text was returned. -/
inductive ApiOutcome where
  | raise : ApiOutcome
  | ok : List Char → ApiOutcome
deriving DecidableEq

/-- Replacement of every newline by one space, Python replace of a one
character needle. -/
def replaceNewlines (l : List Char) : List Char :=
  l.map fun c => if c == '\n' then ' ' else c

/-- The two sentinel phrases of the ignore_texts list. -/
def ignoreTexts : List (List Char) :=
  ["Full text not found in expected structure".toList,
   "Full text not found(or Lens could not recognize it)".toList]

/-- Observable outcome of one call of the method ocr: the returned string,
the time slept by the rate limiter, the value of last_request_time after
the call, and whether a request was dispatched to the recognizer. -/
structure OcrReturn where
  text : List Char
  sleepTime : ℚ
  last_request_time : ℚ
  requested : Bool
deriving DecidableEq

/-- The method ocr.  It first runs _respect_delay unconditionally, then,
when the image has at least one pixel, dispatches the request; an exception
and a sentinel full_text both give the empty string; otherwise the newline
option, the punctuation cleanup and the optional sentence casing are
applied in order.  A zero-pixel image gives the empty string with no
request, after the rate limiter has run. -/
def ocr (delay : ℚ) (newlineRemove noUppercase : Bool) (lastReq now : ℚ)
    (imgSize : Nat) (api : ApiOutcome) : OcrReturn :=
  let rd := respect_delay delay lastReq now
  if 0 < imgSize then
    match api with
    | .raise => ⟨[], rd.1, rd.2, true⟩
    | .ok ft =>
      if ft ∈ ignoreTexts then ⟨[], rd.1, rd.2, true⟩
      else
        let t1 := if newlineRemove then replaceNewlines ft else ft
        let t2 := apply_punctuation_and_spacing t1
        let t3 := if noUppercase then apply_no_uppercase t2 else t2
        ⟨t3, rd.1, rd.2, true⟩
  else ⟨[], rd.1, rd.2, false⟩

/-- A text block as used by _ocr_blk_list: the bounding box fields. -/
structure TextBlock where
  x1 : Int
  y1 : Int
  x2 : Int
  y2 : Int
deriving DecidableEq

/-- The value written into blk.text: either the single string returned by
ocr for a valid block, or the literal one-element list holding the empty
string for an invalid block. -/
inductive BlkText where
  | one : List Char → BlkText
  | many : List (List Char) → BlkText
deriving DecidableEq

/-- The method _ocr_blk_list over one image of height imH and width imW.
The recognizer call on the cropped image is abstracted by the function
recog of the crop bounds; each block yields the text written into it and
whether a recognition call was made for it, in input order. -/
def ocr_blk_list (imH imW : Int) (recog : Int → Int → Int → Int → List Char)
    (blks : List TextBlock) : List (BlkText × Bool) :=
  blks.map fun b =>
    if b.y2 < imH ∧ b.x2 < imW ∧ b.x1 > 0 ∧ b.y1 > 0 ∧ b.x1 < b.x2 ∧ b.y1 < b.y2
    then (.one (recog b.x1 b.y1 b.x2 b.y2), true)
    else (.many [[]], false)

/-- Head condition of the no-whitespace-before-punctuation invariant. -/
def headOk (a : Char) (l : List Char) : Bool :=
  match l.head? with
  | none => true
  | some b => !(isWs a && isPunct b)

/-- No whitespace character stands immediately before a punctuation mark. -/
def noWP : List Char → Bool
  | [] => true
  | [_] => true
  | a :: b :: t => !(isWs a && isPunct b) && noWP (b :: t)

/-- Head condition of the punctuation-followed invariant. -/
def headPS (a : Char) (l : List Char) : Bool :=
  match l.head? with
  | none => true
  | some b => !isPunct a || isWs b || isPunct b

/-- Every punctuation mark with a successor is followed by whitespace or
by another punctuation mark. -/
def punctSpaced : List Char → Bool
  | [] => true
  | [_] => true
  | a :: b :: t => (!isPunct a || isWs b || isPunct b) && punctSpaced (b :: t)

/-- The last character is a punctuation mark. -/
def endsPunct : List Char → Bool
  | [] => false
  | [c] => isPunct c
  | _ :: c :: t => endsPunct (c :: t)

end OcrLens

namespace OcrLens

theorem ws_not_punct {c : Char} (h : isWs c = true) : isPunct c = false := by
  simp only [isWs, Bool.or_eq_true, beq_iff_eq] at h
  rcases h with ((((((h | h) | h) | h) | h) | h) | h) <;> subst h <;> decide

theorem punct_not_ws {c : Char} (h : isPunct c = true) : isWs c = false := by
  simp only [isPunct, Bool.or_eq_true, beq_iff_eq] at h
  rcases h with ((((h | h) | h) | h) | h) <;> subst h <;> decide

theorem noWP_cons_eq (a : Char) (l : List Char) :
    noWP (a :: l) = (headOk a l && noWP l) := by
  cases l <;> rfl

theorem punctSpaced_cons_eq (a : Char) (l : List Char) :
    punctSpaced (a :: l) = (headPS a l && punctSpaced l) := by
  cases l <;> rfl

theorem headOk_of_not_ws {a : Char} (l : List Char) (h : isWs a = false) :
    headOk a l = true := by
  cases l <;> simp [headOk, h]

theorem headOk_congr {a : Char} {l l' : List Char} (h : l.head? = l'.head?) :
    headOk a l = headOk a l' := by
  unfold headOk
  rw [h]

theorem headPS_congr {a : Char} {l l' : List Char} (h : l.head? = l'.head?) :
    headPS a l = headPS a l' := by
  unfold headPS
  rw [h]

theorem noWP_tail {a : Char} {l : List Char} (h : noWP (a :: l) = true) :
    noWP l = true := by
  rw [noWP_cons_eq, Bool.and_eq_true] at h
  exact h.2

theorem punctSpaced_tail {a : Char} {l : List Char}
    (h : punctSpaced (a :: l) = true) : punctSpaced l = true := by
  rw [punctSpaced_cons_eq, Bool.and_eq_true] at h
  exact h.2

theorem noWP_append_right {u v : List Char} (h : noWP (u ++ v) = true) :
    noWP v = true := by
  induction u with
  | nil => exact h
  | cons a u ih => exact ih (noWP_tail h)

theorem noWP_pair {u v : List Char} {a b : Char}
    (h : noWP (u ++ a :: b :: v) = true) (hws : isWs a = true) :
    isPunct b = false := by
  have h2 : noWP (a :: b :: v) = true := noWP_append_right h
  rw [noWP_cons_eq, Bool.and_eq_true] at h2
  have h3 : (!(isWs a && isPunct b)) = true := h2.1
  rw [hws] at h3
  simpa using h3

theorem noWP_allWs {l : List Char} (h : ∀ x ∈ l, isWs x = true) :
    noWP l = true := by
  induction l with
  | nil => rfl
  | cons a l ih =>
    rw [noWP_cons_eq, Bool.and_eq_true]
    refine ⟨?_, ih fun x hx => h x (List.mem_cons_of_mem _ hx)⟩
    cases l with
    | nil => rfl
    | cons b t =>
      have hb : isWs b = true := h b (by simp)
      simp [headOk, ws_not_punct hb]

theorem noWP_wsflush {w l : List Char} {c : Char}
    (hw : ∀ x ∈ w, isWs x = true) (hc1 : isWs c = false) (hc2 : isPunct c = false)
    (hl : noWP l = true) : noWP (w ++ c :: l) = true := by
  induction w with
  | nil =>
    rw [List.nil_append, noWP_cons_eq, Bool.and_eq_true]
    exact ⟨headOk_of_not_ws l hc1, hl⟩
  | cons a w ih =>
    rw [List.cons_append, noWP_cons_eq, Bool.and_eq_true]
    refine ⟨?_, ih fun x hx => hw x (List.mem_cons_of_mem _ hx)⟩
    cases w with
    | nil => simp [headOk, hc2]
    | cons b t =>
      have hb : isWs b = true := hw b (by simp)
      simp [headOk, ws_not_punct hb]

theorem noWP_step1Go (l : List Char) :
    ∀ pend : List Char, (∀ x ∈ pend, isWs x = true) →
      noWP (step1Go pend l) = true := by
  induction l with
  | nil =>
    intro pend hp
    rw [step1Go]
    exact noWP_allWs fun x hx => hp x (List.mem_reverse.1 hx)
  | cons c cs ih =>
    intro pend hp
    rw [step1Go]
    split_ifs with h1 h2
    · exact ih (c :: pend) (by
        intro x hx
        rcases List.mem_cons.1 hx with h | h
        · subst h; exact h1
        · exact hp x h)
    · rw [noWP_cons_eq, Bool.and_eq_true]
      exact ⟨headOk_of_not_ws _ (punct_not_ws h2), ih [] (by simp)⟩
    · exact noWP_wsflush (fun x hx => hp x (List.mem_reverse.1 hx))
        (by simpa using h1) (by simpa using h2) (ih [] (by simp))

theorem noWP_step1 (l : List Char) : noWP (step1 l) = true :=
  noWP_step1Go l [] (by simp)

end OcrLens

namespace OcrLens

theorem step1Go_id (l : List Char) :
    ∀ pend : List Char, (∀ x ∈ pend, isWs x = true) →
      noWP (pend.reverse ++ l) = true → step1Go pend l = pend.reverse ++ l := by
  induction l with
  | nil =>
    intro pend hp hn
    rw [step1Go, List.append_nil]
  | cons c cs ih =>
    intro pend hp hn
    rw [step1Go]
    split_ifs with h1 h2
    · have hrw : (c :: pend).reverse ++ cs = pend.reverse ++ c :: cs := by
        rw [List.reverse_cons, List.append_assoc, List.singleton_append]
      rw [ih (c :: pend)
        (by
          intro x hx
          rcases List.mem_cons.1 hx with h | h
          · subst h; exact h1
          · exact hp x h)
        (by rw [hrw]; exact hn), hrw]
    · cases pend with
      | nil =>
        simp only [List.reverse_nil, List.nil_append] at hn ⊢
        rw [ih [] (by simp) (by simpa using noWP_tail hn)]
        simp
      | cons a p =>
        exfalso
        have ha : isWs a = true := hp a (by simp)
        have hn2 : noWP (p.reverse ++ a :: c :: cs) = true := by
          rw [List.reverse_cons, List.append_assoc, List.singleton_append] at hn
          exact hn
        have hpc := noWP_pair hn2 ha
        rw [hpc] at h2
        exact Bool.false_ne_true h2
    · have hcs : noWP cs = true := noWP_tail (noWP_append_right hn)
      rw [ih [] (by simp) (by simpa using hcs)]
      simp

theorem step1_id {l : List Char} (h : noWP l = true) : step1 l = l := by
  have := step1Go_id l [] (by simp) (by simpa using h)
  simpa [step1] using this

end OcrLens

namespace OcrLens

theorem step2_headq : ∀ l : List Char, (step2 l).head? = l.head? := by
  intro l
  cases l with
  | nil => rfl
  | cons c cs =>
    rw [step2]
    split_ifs <;> rfl

theorem step2_noWP {l : List Char} (hl : noWP l = true) : noWP (step2 l) = true := by
  induction l with
  | nil => rfl
  | cons c cs ih =>
    rw [step2]
    split_ifs with h
    · rw [Bool.and_eq_true] at h
      rw [noWP_cons_eq, Bool.and_eq_true]
      refine ⟨by simp [headOk, isPunct], ?_⟩
      rw [noWP_cons_eq, Bool.and_eq_true]
      refine ⟨?_, ih (noWP_tail hl)⟩
      rw [headOk_congr (step2_headq cs)]
      cases cs with
      | nil => rfl
      | cons d t =>
        have hd : isPunct d = false := by
          have h2 := h.2
          simp only [step2Need, Bool.and_eq_true, Bool.not_eq_true'] at h2
          exact h2.2
        simp [headOk, hd]
    · rw [noWP_cons_eq, Bool.and_eq_true]
      refine ⟨?_, ih (noWP_tail hl)⟩
      rw [headOk_congr (step2_headq cs)]
      rw [noWP_cons_eq, Bool.and_eq_true] at hl
      exact hl.1

theorem step2_punctSpaced : ∀ l : List Char, punctSpaced (step2 l) = true := by
  intro l
  induction l with
  | nil => rfl
  | cons c cs ih =>
    rw [step2]
    split_ifs with h
    · rw [punctSpaced_cons_eq, Bool.and_eq_true]
      refine ⟨by simp [headPS, isWs], ?_⟩
      rw [punctSpaced_cons_eq, Bool.and_eq_true]
      refine ⟨?_, ih⟩
      rw [headPS_congr (step2_headq cs)]
      cases cs <;> simp [headPS, isPunct]
    · rw [punctSpaced_cons_eq, Bool.and_eq_true]
      refine ⟨?_, ih⟩
      rw [headPS_congr (step2_headq cs)]
      cases hb : isPunct c with
      | false => cases cs <;> simp [headPS, hb]
      | true =>
        cases cs with
        | nil => simp [step2Need, hb] at h
        | cons d t =>
          cases hw : isWs d with
          | true => simp [headPS, hb, hw]
          | false =>
            cases hp2 : isPunct d with
            | true => simp [headPS, hb, hw, hp2]
            | false => simp [step2Need, hb, hw, hp2] at h

theorem endsPunct_cons₂ (a b : Char) (t : List Char) :
    endsPunct (a :: b :: t) = endsPunct (b :: t) := rfl

theorem step2_eq_of_punctSpaced {l : List Char} (hl : punctSpaced l = true) :
    step2 l = l ++ (if endsPunct l then [' '] else []) := by
  induction l with
  | nil => rfl
  | cons c cs ih =>
    cases cs with
    | nil =>
      cases hb : isPunct c with
      | true => simp [step2, step2Need, endsPunct, hb]
      | false => simp [step2, step2Need, endsPunct, hb]
    | cons d t =>
      have hhead : headPS c (d :: t) = true := by
        rw [punctSpaced_cons_eq, Bool.and_eq_true] at hl
        exact hl.1
      have hcond : (isPunct c && step2Need (d :: t)) = false := by
        cases hb : isPunct c with
        | false => simp
        | true =>
          simp only [headPS, List.head?_cons, hb, Bool.not_true, Bool.false_or,
            Bool.or_eq_true] at hhead
          rcases hhead with h | h <;> simp [step2Need, h]
      rw [step2, if_neg (by simp [hcond]), ih (punctSpaced_tail hl), endsPunct_cons₂]
      rfl

theorem step3Go_id (l : List Char) :
    ∀ st : Option (Char × List Char),
      (match st with
       | none => noWP l = true
       | some (p, w) => isPunct p = true ∧ (∀ x ∈ w, isWs x = true) ∧
           noWP (p :: (w.reverse ++ l)) = true) →
      step3Go st l = (match st with
        | none => l
        | some (p, w) => p :: (w.reverse ++ l)) := by
  induction l with
  | nil =>
    intro st hst
    cases st with
    | none => rfl
    | some pw =>
      obtain ⟨p, w⟩ := pw
      rw [step3Go]
      simp
  | cons c cs ih =>
    intro st hst
    cases st with
    | none =>
      rw [step3Go]
      split_ifs with h1
      · exact ih (some (c, [])) ⟨h1, by simp, by simpa using hst⟩
      · rw [ih none (noWP_tail hst)]
    | some pw =>
      obtain ⟨p, w⟩ := pw
      obtain ⟨hp, hw, hn⟩ := hst
      rw [step3Go]
      split_ifs with h1 h2 h3
      · have := ih (some (p, c :: w)) ⟨hp, by
          intro x hx
          rcases List.mem_cons.1 hx with h | h
          · subst h; exact h1
          · exact hw x h, by
          have : (c :: w).reverse ++ cs = w.reverse ++ c :: cs := by
            rw [List.reverse_cons, List.append_assoc, List.singleton_append]
          rw [this]
          exact hn⟩
        rw [this]
        simp only [List.reverse_cons, List.append_assoc, List.singleton_append]
      · have hwnil : w = [] := by simpa [List.isEmpty_iff] using h3
        subst hwnil
        have := ih (some (c, [])) ⟨h2, by simp, by
          simpa using noWP_tail (by simpa using hn)⟩
        rw [this]
        simp
      · exfalso
        cases w with
        | nil => exact h3 (by simp)
        | cons a w2 =>
          have ha : isWs a = true := hw a (by simp)
          have hn2 : noWP ((p :: w2.reverse) ++ a :: c :: cs) = true := by
            have hsh : p :: ((a :: w2).reverse ++ c :: cs)
                = (p :: w2.reverse) ++ a :: c :: cs := by
              simp [List.reverse_cons]
            rw [hsh] at hn
            exact hn
          have hpc := noWP_pair hn2 ha
          rw [hpc] at h2
          exact Bool.false_ne_true h2
      · have hcs : noWP cs = true := by
          have h4 := noWP_append_right (noWP_tail hn)
          exact noWP_tail h4
        rw [ih none hcs]
        rfl

theorem step3_id {l : List Char} (h : noWP l = true) : step3 l = l :=
  step3Go_id l none h

end OcrLens

namespace OcrLens

theorem trimL_nonWsHead (l : List Char) :
    trimL l = [] ∨ ∃ c cs, trimL l = c :: cs ∧ isWs c = false := by
  induction l with
  | nil => exact Or.inl rfl
  | cons c cs ih =>
    cases hc : isWs c with
    | true => simpa [trimL, List.dropWhile_cons, hc] using ih
    | false => exact Or.inr ⟨c, cs, by simp [trimL, List.dropWhile_cons, hc], hc⟩

theorem trimL_cons_of_not_ws {c : Char} (cs : List Char) (h : isWs c = false) :
    trimL (c :: cs) = c :: cs := by
  simp [trimL, List.dropWhile_cons, h]

theorem trimR_shape (c : Char) (cs : List Char) :
    trimR (c :: cs) = [] ∨ ∃ r, trimR (c :: cs) = c :: r := by
  rw [trimR]
  cases htr : trimR cs with
  | nil =>
    cases hc : isWs c with
    | true => exact Or.inl (by simp [hc])
    | false => exact Or.inr ⟨[], by simp [hc]⟩
  | cons d t => exact Or.inr ⟨d :: t, rfl⟩

theorem trimR_head_src {cs : List Char} {d : Char} {t : List Char}
    (h : trimR cs = d :: t) : ∃ cs2, cs = d :: cs2 := by
  cases cs with
  | nil => simp [trimR] at h
  | cons e cs2 =>
    rcases trimR_shape e cs2 with h2 | ⟨r, h2⟩
    · rw [h2] at h
      exact absurd h (by simp)
    · rw [h2] at h
      exact ⟨cs2, by rw [List.cons.injEq] at h; rw [h.1]⟩

theorem trimR_idem (l : List Char) : trimR (trimR l) = trimR l := by
  induction l with
  | nil => rfl
  | cons c cs ih =>
    rw [trimR]
    cases htr : trimR cs with
    | nil =>
      cases hc : isWs c with
      | true => simp [hc, trimR]
      | false => simp [hc, trimR]
    | cons d t =>
      rw [trimR, ← htr, ih, htr]

theorem trimR_append_space (l : List Char) : trimR (l ++ [' ']) = trimR l := by
  induction l with
  | nil => rfl
  | cons c cs ih =>
    rw [List.cons_append, trimR, ih, trimR]

theorem pyStrip_append_space (l : List Char) : pyStrip (l ++ [' ']) = pyStrip l := by
  induction l with
  | nil => rfl
  | cons c cs ih =>
    cases hc : isWs c with
    | true =>
      have hL : trimL (c :: (cs ++ [' '])) = trimL (cs ++ [' ']) := by
        simp [trimL, List.dropWhile_cons, hc]
      have hL2 : trimL (c :: cs) = trimL cs := by
        simp [trimL, List.dropWhile_cons, hc]
      rw [List.cons_append, pyStrip, pyStrip, hL, hL2, ← pyStrip, ← pyStrip, ih]
    | false =>
      rw [List.cons_append, pyStrip, pyStrip, trimL_cons_of_not_ws _ hc,
        trimL_cons_of_not_ws _ hc, ← List.cons_append, trimR_append_space]

theorem pyStrip_idem (l : List Char) : pyStrip (pyStrip l) = pyStrip l := by
  rcases trimL_nonWsHead l with h | ⟨c, cs, heq, hc⟩
  · have h1 : pyStrip l = [] := by rw [pyStrip, h]; rfl
    rw [h1]
    rfl
  · have h1 : pyStrip l = trimR (c :: cs) := by rw [pyStrip, heq]
    rcases trimR_shape c cs with h2 | ⟨r, h2⟩
    · rw [h1, h2]
      rfl
    · rw [h1, h2, pyStrip, trimL_cons_of_not_ws r hc, ← h2, trimR_idem]

theorem noWP_trimL {l : List Char} (hl : noWP l = true) : noWP (trimL l) = true := by
  induction l with
  | nil => rfl
  | cons c cs ih =>
    cases hc : isWs c with
    | true =>
      rw [trimL, List.dropWhile_cons, hc]
      exact ih (noWP_tail hl)
    | false =>
      rw [trimL_cons_of_not_ws _ hc]
      exact hl

theorem noWP_trimR {l : List Char} (hl : noWP l = true) : noWP (trimR l) = true := by
  induction l with
  | nil => rfl
  | cons c cs ih =>
    rw [trimR]
    cases htr : trimR cs with
    | nil => cases hc : isWs c <;> simp [hc, noWP]
    | cons d t =>
      obtain ⟨cs2, hcs2⟩ := trimR_head_src htr
      rw [noWP_cons_eq, Bool.and_eq_true]
      constructor
      · have : headOk c (d :: t) = headOk c (d :: cs2) := headOk_congr (by simp)
        rw [this]
        subst hcs2
        rw [noWP_cons_eq, Bool.and_eq_true] at hl
        exact hl.1
      · rw [← htr]
        exact ih (noWP_tail hl)

theorem noWP_pyStrip {l : List Char} (hl : noWP l = true) : noWP (pyStrip l) = true :=
  noWP_trimR (noWP_trimL hl)

theorem punctSpaced_trimL {l : List Char} (hl : punctSpaced l = true) :
    punctSpaced (trimL l) = true := by
  induction l with
  | nil => rfl
  | cons c cs ih =>
    cases hc : isWs c with
    | true =>
      rw [trimL, List.dropWhile_cons, hc]
      exact ih (punctSpaced_tail hl)
    | false =>
      rw [trimL_cons_of_not_ws _ hc]
      exact hl

theorem punctSpaced_trimR {l : List Char} (hl : punctSpaced l = true) :
    punctSpaced (trimR l) = true := by
  induction l with
  | nil => rfl
  | cons c cs ih =>
    rw [trimR]
    cases htr : trimR cs with
    | nil => cases hc : isWs c <;> simp [hc, punctSpaced]
    | cons d t =>
      obtain ⟨cs2, hcs2⟩ := trimR_head_src htr
      rw [punctSpaced_cons_eq, Bool.and_eq_true]
      constructor
      · have : headPS c (d :: t) = headPS c (d :: cs2) := headPS_congr (by simp)
        rw [this]
        subst hcs2
        rw [punctSpaced_cons_eq, Bool.and_eq_true] at hl
        exact hl.1
      · rw [← htr]
        exact ih (punctSpaced_tail hl)

theorem punctSpaced_pyStrip {l : List Char} (hl : punctSpaced l = true) :
    punctSpaced (pyStrip l) = true :=
  punctSpaced_trimR (punctSpaced_trimL hl)

theorem cleanup_eq (l : List Char) :
    apply_punctuation_and_spacing l = pyStrip (step2 (step1 l)) := by
  rw [apply_punctuation_and_spacing, step3_id (step2_noWP (noWP_step1 l))]

theorem cleanup_noWP (l : List Char) :
    noWP (apply_punctuation_and_spacing l) = true := by
  rw [cleanup_eq]
  exact noWP_pyStrip (step2_noWP (noWP_step1 l))

theorem cleanup_punctSpaced (l : List Char) :
    punctSpaced (apply_punctuation_and_spacing l) = true := by
  rw [cleanup_eq]
  exact punctSpaced_pyStrip (step2_punctSpaced (step1 l))

theorem cleanup_stripped (l : List Char) :
    pyStrip (apply_punctuation_and_spacing l) = apply_punctuation_and_spacing l := by
  rw [cleanup_eq]
  exact pyStrip_idem _

theorem cleanup_fix {t : List Char} (hn : noWP t = true)
    (hs : punctSpaced t = true) (hst : pyStrip t = t) :
    apply_punctuation_and_spacing t = t := by
  rw [apply_punctuation_and_spacing, step1_id hn, step3_id (step2_noWP hn),
    step2_eq_of_punctSpaced hs]
  cases he : endsPunct t with
  | false =>
    rw [if_neg (by simp [he]), List.append_nil]
    exact hst
  | true =>
    rw [if_pos (by simp [he]), pyStrip_append_space]
    exact hst

theorem cleanup_idem (l : List Char) :
    apply_punctuation_and_spacing (apply_punctuation_and_spacing l)
      = apply_punctuation_and_spacing l :=
  cleanup_fix (cleanup_noWP l) (cleanup_punctSpaced l) (cleanup_stripped l)

end OcrLens

namespace OcrLens

theorem splitGo_flatten (l : List Char) :
    ∀ acc : List Char, (splitGo acc l).flatten = acc.reverse ++ l := by
  induction l with
  | nil =>
    intro acc
    simp [splitGo]
  | cons c cs ih =>
    intro acc
    rw [splitGo]
    split_ifs with h
    · simp [ih []]
    · rw [ih (c :: acc)]
      simp

theorem splitSentences_flatten (l : List Char) :
    (splitSentences l).flatten = l := by
  simpa using splitGo_flatten l []

theorem tokenize_flatten (l : List Char) : (tokenize l).flatten = l := by
  induction l with
  | nil => rfl
  | cons c cs ih =>
    cases cs with
    | nil => rfl
    | cons d rest =>
      rw [tokenize]
      cases ht : tokenize (d :: rest) with
      | nil =>
        rw [ht] at ih
        simp at ih
      | cons t ts =>
        rw [ht] at ih
        split_ifs with h
        · simpa using ih
        · simpa using ih

theorem asciiLowerLower : ∀ n : Nat, n < 128 →
    toLowerA (toLowerA (Char.ofNat n)) = toLowerA (Char.ofNat n) := by decide

theorem asciiLowerUpper : ∀ n : Nat, n < 128 →
    toLowerA (toUpperA (Char.ofNat n)) = toLowerA (Char.ofNat n) := by decide

theorem toLowerA_toLowerA {c : Char} (h : c.toNat < 128) :
    toLowerA (toLowerA c) = toLowerA c := by
  have := asciiLowerLower c.toNat h
  rwa [Char.ofNat_toNat] at this

theorem toLowerA_toUpperA {c : Char} (h : c.toNat < 128) :
    toLowerA (toUpperA c) = toLowerA c := by
  have := asciiLowerUpper c.toNat h
  rwa [Char.ofNat_toNat] at this

theorem pyLower_lower {w : List Char} (h : ∀ c ∈ w, c.toNat < 128) :
    (pyLower w).map toLowerA = w.map toLowerA := by
  rw [pyLower, List.map_map]
  exact List.map_congr_left fun c hc => toLowerA_toLowerA (h c hc)

theorem pyCapitalize_lower {w : List Char} (h : ∀ c ∈ w, c.toNat < 128) :
    (pyCapitalize w).map toLowerA = w.map toLowerA := by
  cases w with
  | nil => rfl
  | cons c cs =>
    rw [pyCapitalize, List.map_cons, List.map_cons, List.map_map,
      toLowerA_toUpperA (h c (by simp))]
    congr 1
    exact List.map_congr_left fun d hd => toLowerA_toLowerA (h d (List.mem_cons_of_mem _ hd))

theorem processWords_lower (ws : List (List Char)) :
    ∀ prev : Option (List Char), (∀ w ∈ ws, ∀ c ∈ w, c.toNat < 128) →
      ((processWords prev ws).flatten).map toLowerA = (ws.flatten).map toLowerA := by
  induction ws with
  | nil => intro prev h; rfl
  | cons w ws ih =>
    intro prev h
    have hw : ∀ c ∈ w, c.toNat < 128 := h w (by simp)
    have hws : ∀ v ∈ ws, ∀ c ∈ v, c.toNat < 128 :=
      fun v hv => h v (List.mem_cons_of_mem _ hv)
    cases prev with
    | none =>
      rw [processWords, List.flatten_cons, List.flatten_cons, List.map_append,
        List.map_append, pyCapitalize_lower hw, ih (some w) hws]
    | some p =>
      rw [processWords, List.flatten_cons, List.flatten_cons, List.map_append,
        List.map_append, ih (some w) hws]
      split_ifs with hcap
      · rw [pyCapitalize_lower hw]
      · rw [pyLower_lower hw]

theorem processSentence_lower {s : List Char} (h : ∀ c ∈ s, c.toNat < 128) :
    (processSentence s).map toLowerA = s.map toLowerA := by
  rw [processSentence,
    processWords_lower (tokenize s) none
      (by
        intro w hw c hc
        exact h c (by
          rw [← tokenize_flatten s]
          exact List.mem_flatten.2 ⟨w, hw, hc⟩)),
    tokenize_flatten]

end OcrLens

namespace OcrLens

theorem apply_no_uppercase_lower {l : List Char} (h : ∀ c ∈ l, c.toNat < 128) :
    (apply_no_uppercase l).map toLowerA = l.map toLowerA := by
  have h1 : ∀ s ∈ splitSentences l,
      (List.map toLowerA ∘ processSentence) s = s.map toLowerA := by
    intro s hs
    apply processSentence_lower
    intro c hc
    refine h c ?_
    rw [← splitSentences_flatten l]
    exact List.mem_flatten.2 ⟨s, hs, hc⟩
  rw [apply_no_uppercase, List.map_flatten, List.map_map,
    List.map_congr_left h1, ← List.map_flatten, splitSentences_flatten]

end OcrLens

namespace OcrLens

/-- Claim C1.  Evaluation of sentence-case enforcement on the spec example:
the code capitalizes every word token, because the whitespace token before
each word strips to the empty string and the Python substring test counts
the empty string as contained in the terminator string.  The example input
passes punctuation cleanup unchanged and then comes out in title case,
which differs from the sentence case required by the claim. -/
theorem c1_no_uppercase_title_cases :
    apply_no_uppercase ("hello world. THIS IS LOUD! are you SURE?".toList)
      = "Hello World. This Is Loud! Are You Sure?".toList
    ∧ apply_punctuation_and_spacing ("hello world. THIS IS LOUD! are you SURE?".toList)
      = "hello world. THIS IS LOUD! are you SURE?".toList
    ∧ apply_no_uppercase ("hello world. THIS IS LOUD! are you SURE?".toList)
      ≠ "Hello world. This is loud! Are you sure?".toList := by
  refine ⟨by decide, by decide, by decide⟩

/-- Claim C2, counterexample.  On the spec example the cleanup leaves the
two spaces that already stand after the glued terminators, so the claimed
output with a single space is not reached. -/
theorem c2_cleanup_example_false :
    apply_punctuation_and_spacing ("Wait  , what ?!  Really…".toList)
      ≠ "Wait, what?! Really…".toList := by decide

/-- Claim C2, amended.  The cleanup removes whitespace before terminators,
adds one space after a terminator only when no whitespace and no terminator
follows, keeps terminator runs glued, and trims; an existing whitespace run
after a terminator is never collapsed, so the example input maps to the
output with both spaces kept. -/
theorem c2_cleanup_example_amended :
    apply_punctuation_and_spacing ("Wait  , what ?!  Really…".toList)
      = "Wait, what?!  Really…".toList
    ∧ apply_punctuation_and_spacing ("what ?!".toList) = "what?!".toList
    ∧ apply_punctuation_and_spacing ("Wait  ,".toList) = "Wait,".toList
    ∧ apply_punctuation_and_spacing ("Wait,what".toList) = "Wait, what".toList := by
  refine ⟨by decide, by decide, by decide, by decide⟩

/-- Claim C3, counterexample.  A zero-pixel image gives the empty string
and no request, but the rate limiter has already run before the size
check: at delay one with a stale last_request_time the call sleeps one
second and moves last_request_time, against the claim that no delay is
consumed and the state is unchanged. -/
theorem c3_empty_image_delays :
    (ocr 1 false false 10 10 0 .raise).text = []
    ∧ (ocr 1 false false 10 10 0 .raise).requested = false
    ∧ (ocr 1 false false 10 10 0 .raise).sleepTime = 1
    ∧ (ocr 1 false false 10 10 0 .raise).last_request_time = 11 := by
  refine ⟨rfl, rfl, by norm_num [ocr, respect_delay], by norm_num [ocr, respect_delay]⟩

/-- Claim C3, amended.  For every zero-pixel image the call returns the
empty string and dispatches no request, but _respect_delay runs first
exactly as for any other call: the sleep and the update of
last_request_time are those of the rate limiter. -/
theorem c3_empty_image_amended (delay lastReq now : ℚ) (nr nu : Bool)
    (api : ApiOutcome) :
    (ocr delay nr nu lastReq now 0 api).text = []
    ∧ (ocr delay nr nu lastReq now 0 api).requested = false
    ∧ (ocr delay nr nu lastReq now 0 api).sleepTime
        = (respect_delay delay lastReq now).1
    ∧ (ocr delay nr nu lastReq now 0 api).last_request_time
        = (respect_delay delay lastReq now).2 := by
  refine ⟨rfl, rfl, rfl, rfl⟩

/-- Claim C4.  The ocr method never lets an exception out: whenever the
encoding or the client raises, the result is the empty string, and a
result whose full_text equals one of the sentinel phrases also gives the
empty string. -/
theorem c4_errors_and_sentinels_empty (delay lastReq now : ℚ) (nr nu : Bool)
    (n : Nat) (ft : List Char) (hft : ft ∈ ignoreTexts) :
    (ocr delay nr nu lastReq now n .raise).text = []
    ∧ (ocr delay nr nu lastReq now n (.ok ft)).text = [] := by
  constructor
  · unfold ocr
    split <;> simp
  · unfold ocr
    split <;> simp [hft]

/-- Witness for C4 at a concrete input. -/
theorem c4_errors_and_sentinels_empty_witness :
    ("Full text not found in expected structure".toList ∈ ignoreTexts)
    ∧ (ocr 1 false false 0 100 1
        (.ok ("Full text not found in expected structure".toList))).text = []
    ∧ (ocr 1 false false 0 100 1 .raise).text = [] :=
  ⟨by decide,
   (c4_errors_and_sentinels_empty 1 0 100 false false 1 _ (by decide)).2,
   (c4_errors_and_sentinels_empty 1 0 100 false false 1
     ("Full text not found in expected structure".toList) (by decide)).1⟩

/-- Claim C5.  The block pipeline visits the regions in input order; a
region whose box violates the strict validity invariant gets the
one-element list holding the empty string and no recognition call, and a
region satisfying it is recognized on the crop given by its box. -/
theorem c5_block_validation (imH imW : Int)
    (recog : Int → Int → Int → Int → List Char) (blks : List TextBlock) :
    (ocr_blk_list imH imW recog blks).length = blks.length
    ∧ ∀ (i : Nat) (b : TextBlock), blks[i]? = some b →
        (¬(0 < b.x1 ∧ b.x1 < b.x2 ∧ b.x2 < imW
            ∧ 0 < b.y1 ∧ b.y1 < b.y2 ∧ b.y2 < imH) →
          (ocr_blk_list imH imW recog blks)[i]? = some (.many [[]], false))
        ∧ ((0 < b.x1 ∧ b.x1 < b.x2 ∧ b.x2 < imW
            ∧ 0 < b.y1 ∧ b.y1 < b.y2 ∧ b.y2 < imH) →
          (ocr_blk_list imH imW recog blks)[i]?
            = some (.one (recog b.x1 b.y1 b.x2 b.y2), true)) := by
  refine ⟨by simp [ocr_blk_list], ?_⟩
  intro i b hb
  constructor
  · intro hinv
    have hc : ¬(b.y2 < imH ∧ b.x2 < imW ∧ b.x1 > 0 ∧ b.y1 > 0
        ∧ b.x1 < b.x2 ∧ b.y1 < b.y2) := by
      intro hc
      exact hinv ⟨hc.2.2.1, hc.2.2.2.2.1, hc.2.1, hc.2.2.2.1, hc.2.2.2.2.2, hc.1⟩
    unfold ocr_blk_list
    rw [List.getElem?_map, hb, Option.map_some', if_neg hc]
  · intro hv
    have hc : b.y2 < imH ∧ b.x2 < imW ∧ b.x1 > 0 ∧ b.y1 > 0
        ∧ b.x1 < b.x2 ∧ b.y1 < b.y2 :=
      ⟨hv.2.2.2.2.2, hv.2.2.1, hv.1, hv.2.2.2.1, hv.2.1, hv.2.2.2.2.1⟩
    unfold ocr_blk_list
    rw [List.getElem?_map, hb, Option.map_some', if_pos hc]

/-- Witness for C5 on a two-block batch: the first block is valid, the
second touches the left border and is invalid. -/
theorem c5_block_validation_witness :
    (ocr_blk_list 10 10 (fun _ _ _ _ => []) [⟨1, 1, 3, 3⟩, ⟨0, 1, 3, 3⟩])[0]?
      = some (.one [], true)
    ∧ (ocr_blk_list 10 10 (fun _ _ _ _ => []) [⟨1, 1, 3, 3⟩, ⟨0, 1, 3, 3⟩])[1]?
      = some (.many [[]], false) :=
  ⟨((c5_block_validation 10 10 (fun _ _ _ _ => [])
      [⟨1, 1, 3, 3⟩, ⟨0, 1, 3, 3⟩]).2 0 ⟨1, 1, 3, 3⟩ (by decide)).2 (by decide),
   ((c5_block_validation 10 10 (fun _ _ _ _ => [])
      [⟨1, 1, 3, 3⟩, ⟨0, 1, 3, 3⟩]).2 1 ⟨0, 1, 3, 3⟩ (by decide)).1 (by decide)⟩

/-- Claim C6.  The punctuation and spacing cleanup is idempotent. -/
theorem c6_cleanup_idempotent (s : List Char) :
    apply_punctuation_and_spacing (apply_punctuation_and_spacing s)
      = apply_punctuation_and_spacing s :=
  cleanup_idem s

/-- Claim C7.  With newline handling set to remove, every newline of the
raw full_text is replaced by one space before normalization, and the spec
example goes through the whole ocr path accordingly; with preserve the
line break stays. -/
theorem c7_newline_handling (delay lastReq now : ℚ) :
    (ocr delay true false lastReq now 1
        (.ok ("line one\nline two".toList))).text = "line one line two".toList
    ∧ (ocr delay false false lastReq now 1
        (.ok ("line one\nline two".toList))).text = "line one\nline two".toList
    ∧ ∀ s : List Char, (replaceNewlines s).contains '\n' = false := by
  refine ⟨rfl, rfl, ?_⟩
  intro s
  induction s with
  | nil => rfl
  | cons c cs ih =>
    have hstep : replaceNewlines (c :: cs)
        = (if c == '\n' then ' ' else c) :: replaceNewlines cs := rfl
    rw [hstep, List.contains_cons, ih, Bool.or_false]
    by_cases h : c = '\n'
    · subst h
      decide
    · rw [if_neg (by simpa using h), beq_eq_false_iff_ne]
      exact fun hh => h hh.symm

/-- Claim C8.  The rate limiter sleeps exactly the remaining part of the
delay when the elapsed time is short, then stores the post-sleep clock
reading, so consecutive dispatch times are at least the delay apart; with
the constructor value of last_request_time and a clock past the delay, the
first call does not sleep. -/
theorem c8_rate_limiter (delay lastReq now : ℚ) :
    (now - lastReq < delay →
      respect_delay delay lastReq now
        = (delay - (now - lastReq), now + (delay - (now - lastReq))))
    ∧ (delay ≤ now - lastReq → respect_delay delay lastReq now = (0, now))
    ∧ (respect_delay delay lastReq now).2
        = now + (respect_delay delay lastReq now).1
    ∧ lastReq + delay ≤ (respect_delay delay lastReq now).2
    ∧ (delay ≤ now → respect_delay delay initial_last_request_time now = (0, now)) := by
  refine ⟨?_, ?_, ?_, ?_, ?_⟩
  · intro h
    rw [respect_delay, if_pos h]
  · intro h
    rw [respect_delay, if_neg (not_lt.2 h)]
  · rw [respect_delay]
    split_ifs <;> simp
  · rw [respect_delay]
    split_ifs with h
    · have heq : now + (delay - (now - lastReq)) = lastReq + delay := by ring
      simp [heq]
    · rw [not_lt] at h
      simpa using by linarith
  · intro h
    rw [initial_last_request_time, respect_delay,
      if_neg (by rw [not_lt]; simpa using h)]

/-- Witness for C8: a call one second after the previous one with delay
one sleeps a full second and lands eleven, and a fresh limiter at clock
five with delay one does not sleep. -/
theorem c8_rate_limiter_witness :
    respect_delay 1 10 10 = (1, 11) ∧ respect_delay 1 0 5 = (0, 5) :=
  ⟨by
    have h := (c8_rate_limiter 1 10 10).1 (by norm_num)
    rw [h]
    norm_num,
   by
    have h := (c8_rate_limiter 1 0 5).2.2.2.2 (by norm_num)
    simpa [initial_last_request_time] using h⟩

/-- Claim C9.  The cleanup output never carries leading or trailing
whitespace: it is a fixed point of strip, the empty string maps to itself,
and the fixed point property survives any number of iterations. -/
theorem c9_cleanup_trimmed (s : List Char) (n : Nat) :
    pyStrip (apply_punctuation_and_spacing s) = apply_punctuation_and_spacing s
    ∧ apply_punctuation_and_spacing [] = []
    ∧ pyStrip (apply_punctuation_and_spacing^[n + 1] s)
        = apply_punctuation_and_spacing^[n + 1] s := by
  refine ⟨cleanup_stripped s, rfl, ?_⟩
  rw [Function.iterate_succ_apply']
  exact cleanup_stripped _

/-- Claim C10.  Sentence-case enforcement only changes letter case: on an
ASCII string, lower-casing its output gives the lower-casing of the
input. -/
theorem c10_case_only (l : List Char) (h : ∀ c ∈ l, c.toNat < 128) :
    (apply_no_uppercase l).map toLowerA = l.map toLowerA :=
  apply_no_uppercase_lower h

/-- Witness for C10 at a concrete ASCII input. -/
theorem c10_case_only_witness :
    (∀ c ∈ ("Ab. cD! eF".toList), c.toNat < 128)
    ∧ (apply_no_uppercase ("Ab. cD! eF".toList)).map toLowerA
        = ("Ab. cD! eF".toList).map toLowerA :=
  ⟨by decide, c10_case_only ("Ab. cD! eF".toList) (by decide)⟩

end OcrLens
